import Mathlib

/-!
Verification of the byte-coding core of this LevelDB fork: the `Slice`
byte view (`include/leveldb/slice.h`), the `Status` operation result
(`include/leveldb/status.h`), and the varint / fixed-width codec
(`util/coding.h`).  C pointers are modelled as addresses into a byte
memory `Mem`; a byte read at address `i` is `m i % 256`.  Routines whose
bodies live in `util/coding.cc` or `util/status.cc` (which are not part
of the given sources, only their declarations in the headers are) are
modelled from the specification and say so in their doc comments.
-/

namespace LevelDB

/-- Byte-addressed memory standing for the address space the C pointers
point into. -/
abbrev Mem := Nat → Nat

/-- The byte stored at address `p` (an `unsigned char` read). -/
def byteAt (m : Mem) (p : Nat) : Nat := m p % 256

/-- Every byte read is below 256. -/
theorem byteAt_lt (m : Mem) (p : Nat) : byteAt m p < 256 :=
  Nat.mod_lt _ (by norm_num)

/-- The list of `n` bytes stored at addresses `p, p+1, …, p+n-1`. -/
def readBytes (m : Mem) (p n : Nat) : List Nat :=
  (List.range n).map (fun i => byteAt m (p + i))

/-- The byte list `l` is laid out in memory starting at address `p`. -/
def bytesAt (m : Mem) (p : Nat) (l : List Nat) : Prop :=
  ∀ i, i < l.length → byteAt m (p + i) = l.getD i 0

instance decidableBytesAt (m : Mem) (p : Nat) (l : List Nat) :
    Decidable (bytesAt m p l) := by
  unfold bytesAt; infer_instance

/-- Modelled from the spec: the byte sequence written by `EncodeVarint32` /
`EncodeVarint64` (their bodies live in `util/coding.cc`, which is not among
the given sources).  Spec §4.4/§6: the minimal base-128 encoding,
least-significant 7-bit group first, the high bit of every byte but the
last set as a continuation flag. -/
def encodeVarint (v : Nat) : List Nat :=
  if v < 128 then [v]
  else (v % 128 + 128) :: encodeVarint (v / 128)
termination_by v
decreasing_by exact Nat.div_lt_self (by omega) (by omega)

/-- Modelled from the spec: `VarintLength` (body in `util/coding.cc`, not
among the given sources).  Spec §4.4: the exact byte count of the varint
encoding, computed from the number of 7-bit groups needed. -/
def VarintLength (v : Nat) : Nat :=
  if v < 128 then 1 else 1 + VarintLength (v / 128)
termination_by v
decreasing_by exact Nat.div_lt_self (by omega) (by omega)

/-- Modelled from the spec: the general multi-byte varint decoding loop
shared by `GetVarint32PtrFallback` and `GetVarint64Ptr` (bodies in
`util/coding.cc`, not among the given sources).  Spec §4.4: read bytes
while `p < limit`; each byte contributes its low 7 bits, least-significant
group first; a clear high bit terminates; reaching `limit` before a
terminating byte fails, as does exceeding the maximal group count for the
width; a group shifted past the width keeps only the bits that fit (the
documented laxity).  `groups` is the number of 7-bit groups still allowed
and `width` the bit width of the target integer; arithmetic on the
accumulator is width-bit unsigned arithmetic, hence the `% 2 ^ width`. -/
def varintLoop (m : Mem) (limit width : Nat) :
    Nat → Nat → Nat → Nat → Option (Nat × Nat)
  | 0, _, _, _ => none
  | groups + 1, p, shift, result =>
    if p < limit then
      if byteAt m p < 128 then
        some (p + 1, (result + byteAt m p <<< shift) % 2 ^ width)
      else
        varintLoop m limit width groups (p + 1) (shift + 7)
          ((result + (byteAt m p % 128) <<< shift) % 2 ^ width)
    else none

/-- Modelled from the spec: `GetVarint32PtrFallback` (body in
`util/coding.cc`, not among the given sources): the general loop with at
most five 7-bit groups for a 32-bit target. -/
def GetVarint32PtrFallback (m : Mem) (p limit : Nat) : Option (Nat × Nat) :=
  varintLoop m limit 32 5 p 0 0

/-- From `util/coding.h`: `GetVarint32Ptr` — if a byte is available and its
high bit is clear it is the whole value, otherwise defer to the fallback.
`none` stands for the `NULL` error return. -/
def GetVarint32Ptr (m : Mem) (p limit : Nat) : Option (Nat × Nat) :=
  if p < limit then
    if byteAt m p &&& 128 = 0 then some (p + 1, byteAt m p)
    else GetVarint32PtrFallback m p limit
  else GetVarint32PtrFallback m p limit

/-- Modelled from the spec: `GetVarint64Ptr` (body in `util/coding.cc`, not
among the given sources): the general loop with at most ten 7-bit groups
for a 64-bit target. -/
def GetVarint64Ptr (m : Mem) (p limit : Nat) : Option (Nat × Nat) :=
  varintLoop m limit 64 10 p 0 0

/-- From `include/leveldb/slice.h`: a Slice is a pointer into external
storage plus a size; the pointer is modelled as an address into `Mem`. -/
structure Slice where
  data : Nat
  size : Nat
deriving DecidableEq, Repr

/-- C `memcmp` over `n` bytes at addresses `p` and `q`: zero when the byte
ranges agree, otherwise the difference of the first differing byte pair
(bytes compared as `unsigned char`). -/
def memcmp (m : Mem) : Nat → Nat → Nat → Int
  | _, _, 0 => 0
  | p, q, n + 1 =>
    if byteAt m p = byteAt m q then memcmp m (p + 1) (q + 1) n
    else (byteAt m p : Int) - (byteAt m q : Int)

/-- From `include/leveldb/slice.h`: `operator==` — equal sizes and a zero
`memcmp` over the first `size` bytes. -/
def sliceEq (m : Mem) (x y : Slice) : Bool :=
  x.size == y.size && memcmp m x.data y.data x.size == 0

/-- From `include/leveldb/slice.h`: `Slice::compare` — `memcmp` over the
shared prefix length; on a tie the shorter slice orders first. -/
def Slice.compare (m : Mem) (a b : Slice) : Int :=
  let min_len : Nat := if a.size < b.size then a.size else b.size
  let r := memcmp m a.data b.data min_len
  if r = 0 then
    if a.size < b.size then -1
    else if a.size > b.size then 1
    else 0
  else r

/-- The bytes a slice refers to. -/
def sliceBytes (m : Mem) (s : Slice) : List Nat := readBytes m s.data s.size

/-- Modelled from the spec: `GetVarint32` (body in `util/coding.cc`, not
among the given sources).  Spec §4.4, cursor variant: decode from the
front of the view; on success return `true`, the view advanced past the
consumed bytes, and the value; on failure return `false` with the view
unchanged (the value output is then meaningless, modelled as 0). -/
def GetVarint32 (m : Mem) (input : Slice) : Bool × Slice × Nat :=
  match GetVarint32Ptr m input.data (input.data + input.size) with
  | some (q, v) => (true, ⟨q, input.data + input.size - q⟩, v)
  | none => (false, input, 0)

/-- Modelled from the spec: `GetVarint64` (body in `util/coding.cc`, not
among the given sources); the 64-bit cursor variant. -/
def GetVarint64 (m : Mem) (input : Slice) : Bool × Slice × Nat :=
  match GetVarint64Ptr m input.data (input.data + input.size) with
  | some (q, v) => (true, ⟨q, input.data + input.size - q⟩, v)
  | none => (false, input, 0)

/-- Modelled from the spec: the bytes `PutLengthPrefixedSlice` appends for
a byte string `s` (body in `util/coding.cc`, not among the given sources).
Spec §4.5: `varint(length)` followed by the raw bytes. -/
def PutLengthPrefixedSlice (s : List Nat) : List Nat :=
  encodeVarint s.length ++ s

/-- Modelled from the spec: `GetLengthPrefixedSlice` (body in
`util/coding.cc`, not among the given sources).  Spec §4.5: read a varint
length `L` from the front of the view; fail if the varint fails or fewer
than `L` bytes remain after it; on success the result aliases the next
`L` bytes and the input view is advanced past the consumed bytes. -/
def GetLengthPrefixedSlice (m : Mem) (input : Slice) : Option (Slice × Slice) :=
  match GetVarint32 m input with
  | (true, rest, len) =>
    if len ≤ rest.size then
      some (⟨rest.data + len, rest.size - len⟩, ⟨rest.data, len⟩)
    else none
  | (false, _, _) => none

/-- Modelled from the spec: the four bytes `EncodeFixed32` writes (body in
`util/coding.cc`, not among the given sources).  Spec §4.3/§6: exactly
four bytes, least-significant byte first. -/
def EncodeFixed32 (v : Nat) : List Nat :=
  [v % 256, v / 2 ^ 8 % 256, v / 2 ^ 16 % 256, v / 2 ^ 24 % 256]

/-- Modelled from the spec: the eight bytes `EncodeFixed64` writes (body
in `util/coding.cc`, not among the given sources). -/
def EncodeFixed64 (v : Nat) : List Nat :=
  [v % 256, v / 2 ^ 8 % 256, v / 2 ^ 16 % 256, v / 2 ^ 24 % 256,
   v / 2 ^ 32 % 256, v / 2 ^ 40 % 256, v / 2 ^ 48 % 256, v / 2 ^ 56 % 256]

/-- From `util/coding.h`: the little-endian branch of `DecodeFixed32` — a
raw 4-byte load, which on a little-endian host yields the bytes weighted
by `256 ^ i`. -/
def DecodeFixed32_load (m : Mem) (p : Nat) : Nat :=
  byteAt m p + byteAt m (p + 1) * 2 ^ 8 + byteAt m (p + 2) * 2 ^ 16 +
    byteAt m (p + 3) * 2 ^ 24

/-- From `util/coding.h`: the big-endian branch of `DecodeFixed32` — the
explicit byte assembly with shifts and ors, exactly as in the source. -/
def DecodeFixed32_assemble (m : Mem) (p : Nat) : Nat :=
  byteAt m p ||| byteAt m (p + 1) <<< 8 ||| byteAt m (p + 2) <<< 16 |||
    byteAt m (p + 3) <<< 24

/-- From `util/coding.h`: the little-endian branch of `DecodeFixed64` — a
raw 8-byte load on a little-endian host. -/
def DecodeFixed64_load (m : Mem) (p : Nat) : Nat :=
  byteAt m p + byteAt m (p + 1) * 2 ^ 8 + byteAt m (p + 2) * 2 ^ 16 +
    byteAt m (p + 3) * 2 ^ 24 + byteAt m (p + 4) * 2 ^ 32 +
    byteAt m (p + 5) * 2 ^ 40 + byteAt m (p + 6) * 2 ^ 48 +
    byteAt m (p + 7) * 2 ^ 56

/-- From `util/coding.h`: the big-endian branch of `DecodeFixed64` — two
`DecodeFixed32` byte assemblies combined as `(hi << 32) | lo`. -/
def DecodeFixed64_assemble (m : Mem) (p : Nat) : Nat :=
  DecodeFixed32_assemble m (p + 4) <<< 32 ||| DecodeFixed32_assemble m p

/-- From `include/leveldb/status.h`: the error-kind enumeration. -/
inductive Code where
  | kOk
  | kNotFound
  | kCorruption
  | kNotSupported
  | kInvalidArgument
  | kIOError
deriving DecidableEq

/-- From `include/leveldb/status.h`: a Status is success (`state_ == NULL`)
or an error kind with an owned message; the packed `state_` byte array is
modelled as the kind tag plus the message string, following the spec §9
re-architecture note. -/
inductive Status where
  | okS : Status
  | errS : Code → String → Status
deriving DecidableEq

/-- Modelled from the spec: the message payload built by the private
`Status(code, msg, msg2)` constructor (body in `util/status.cc`, not among
the given sources).  Spec §3: one or two fragments, the second, when
present, separated by `": "`. -/
def statusMessage (msg msg2 : String) : String :=
  if msg2 = "" then msg else msg ++ ": " ++ msg2

/-- From `include/leveldb/status.h`: `Status::OK()`. -/
def Status.OK : Status := .okS

/-- From `include/leveldb/status.h`: `Status::NotFound(msg, msg2)`; the C++
default argument `msg2 = Slice()` is passed explicitly as `""`. -/
def Status.NotFound (msg msg2 : String) : Status :=
  .errS .kNotFound (statusMessage msg msg2)

/-- From `include/leveldb/status.h`: `Status::Corruption(msg, msg2)`. -/
def Status.Corruption (msg msg2 : String) : Status :=
  .errS .kCorruption (statusMessage msg msg2)

/-- From `include/leveldb/status.h`: `Status::NotSupported(msg, msg2)`. -/
def Status.NotSupported (msg msg2 : String) : Status :=
  .errS .kNotSupported (statusMessage msg msg2)

/-- From `include/leveldb/status.h`: `Status::InvalidArgument(msg, msg2)`. -/
def Status.InvalidArgument (msg msg2 : String) : Status :=
  .errS .kInvalidArgument (statusMessage msg msg2)

/-- From `include/leveldb/status.h`: `Status::IOError(msg, msg2)`. -/
def Status.IOError (msg msg2 : String) : Status :=
  .errS .kIOError (statusMessage msg msg2)

/-- From `include/leveldb/status.h`: `ok()` is true iff `state_` is null,
i.e. iff the status is the success status. -/
def Status.ok : Status → Bool
  | .okS => true
  | .errS _ _ => false

/-- Modelled from the spec: the kind-name strings used by
`Status::ToString` (body in `util/status.cc`, not among the given
sources). -/
def codeName : Code → String
  | .kOk => "OK"
  | .kNotFound => "NotFound"
  | .kCorruption => "Corruption"
  | .kNotSupported => "Not supported"
  | .kInvalidArgument => "Invalid argument"
  | .kIOError => "IO error"

/-- Modelled from the spec: `Status::ToString` (body in `util/status.cc`,
not among the given sources).  Spec §4.2: `"OK"` for success, otherwise
the kind name, `": "`, and the message. -/
def Status.ToString : Status → String
  | .okS => "OK"
  | .errS c msg => codeName c ++ ": " ++ msg

/-- Spec-side byte-wise lexicographic order on byte lists, a shorter list
ordering before any list it is a proper prefix of (spec §3 Ordering and
§8). -/
def lexLt : List Nat → List Nat → Bool
  | [], [] => false
  | [], _ :: _ => true
  | _ :: _, [] => false
  | a :: as, b :: bs => a < b || (a == b && lexLt as bs)

/-! ### Varint helper lemmas -/

theorem encodeVarint_of_lt {v : Nat} (h : v < 128) : encodeVarint v = [v] := by
  rw [encodeVarint, if_pos h]

theorem encodeVarint_of_ge {v : Nat} (h : 128 ≤ v) :
    encodeVarint v = (v % 128 + 128) :: encodeVarint (v / 128) := by
  rw [encodeVarint, if_neg (by omega)]

theorem encodeVarint_length_pos (v : Nat) : 0 < (encodeVarint v).length := by
  by_cases h : v < 128
  · rw [encodeVarint_of_lt h]; simp
  · rw [encodeVarint_of_ge (by omega)]; simp

/-- `VarintLength` is exactly the number of bytes the encoder emits. -/
theorem varintLength_eq (v : Nat) : VarintLength v = (encodeVarint v).length := by
  induction v using Nat.strong_induction_on with
  | _ v ih =>
    by_cases h : v < 128
    · rw [VarintLength, if_pos h, encodeVarint_of_lt h]; rfl
    · rw [VarintLength, if_neg h, encodeVarint_of_ge (by omega)]
      rw [ih (v / 128) (Nat.div_lt_self (by omega) (by omega))]
      simp [Nat.add_comm]

/-- A value below `128 ^ (k + 1)` encodes in at most `k + 1` bytes. -/
theorem encodeVarint_length_le :
    ∀ k v, v < 128 ^ (k + 1) → (encodeVarint v).length ≤ k + 1 := by
  intro k
  induction k with
  | zero =>
    intro v hv
    rw [encodeVarint_of_lt (by simpa using hv)]; simp
  | succ k ih =>
    intro v hv
    by_cases h : v < 128
    · rw [encodeVarint_of_lt h]; simp
    · rw [encodeVarint_of_ge (by omega)]
      have : v / 128 < 128 ^ (k + 1) := by
        rw [Nat.div_lt_iff_lt_mul (by omega)]
        calc v < 128 ^ (k + 2) := hv
          _ = 128 ^ (k + 1) * 128 := by ring
      simpa using ih (v / 128) this

/-- Every byte of the encoding other than the last has its high bit set. -/
theorem encodeVarint_midbyte :
    ∀ v i, i + 1 < (encodeVarint v).length → 128 ≤ (encodeVarint v).getD i 0 := by
  intro v
  induction v using Nat.strong_induction_on with
  | _ v ih =>
    intro i hi
    by_cases h : v < 128
    · rw [encodeVarint_of_lt h] at hi; simp at hi
    · rw [encodeVarint_of_ge (by omega)] at hi ⊢
      match i with
      | 0 => simp
      | j + 1 =>
        simp only [List.getD_cons_succ]
        exact ih (v / 128) (Nat.div_lt_self (by omega) (by omega)) j
          (by simpa using hi)

theorem bytesAt_cons {m : Mem} {p : Nat} {a : Nat} {l : List Nat} :
    bytesAt m p (a :: l) ↔ byteAt m p = a ∧ bytesAt m (p + 1) l := by
  constructor
  · intro h
    refine ⟨by simpa using h 0 (by simp), fun i hi => ?_⟩
    have := h (i + 1) (by simpa using hi)
    simpa [Nat.add_comm, Nat.add_assoc, Nat.add_left_comm] using this
  · rintro ⟨h0, h⟩ i hi
    match i with
    | 0 => simpa using h0
    | j + 1 =>
      have := h j (by simpa using hi)
      simpa [Nat.add_comm, Nat.add_assoc, Nat.add_left_comm] using this

theorem bytesAt_append {m : Mem} {p : Nat} {l1 l2 : List Nat} :
    bytesAt m p (l1 ++ l2) ↔ bytesAt m p l1 ∧ bytesAt m (p + l1.length) l2 := by
  induction l1 generalizing p with
  | nil => simp [bytesAt]
  | cons a l ih =>
    simp only [List.cons_append, bytesAt_cons, ih, List.length_cons]
    constructor
    · rintro ⟨h0, h1, h2⟩
      exact ⟨⟨h0, h1⟩, by
        have : p + 1 + l.length = p + (l.length + 1) := by omega
        rwa [← this]⟩
    · rintro ⟨⟨h0, h1⟩, h2⟩
      refine ⟨h0, h1, ?_⟩
      have : p + 1 + l.length = p + (l.length + 1) := by omega
      rwa [this]

/-! ### Decoding the multi-byte loop on an encoded value -/

theorem varintLoop_step_done {m : Mem} {limit width g p shift result : Nat}
    (hp : p < limit) (hb : byteAt m p < 128) :
    varintLoop m limit width (g + 1) p shift result =
      some (p + 1, (result + byteAt m p <<< shift) % 2 ^ width) := by
  rw [varintLoop, if_pos hp, if_pos hb]

theorem varintLoop_step_cont {m : Mem} {limit width g p shift result : Nat}
    (hp : p < limit) (hb : ¬ byteAt m p < 128) :
    varintLoop m limit width (g + 1) p shift result =
      varintLoop m limit width g (p + 1) (shift + 7)
        ((result + (byteAt m p % 128) <<< shift) % 2 ^ width) := by
  rw [varintLoop, if_pos hp, if_neg hb]

theorem varintLoop_stop {m : Mem} {limit width g p shift result : Nat}
    (hp : ¬ p < limit) :
    varintLoop m limit width (g + 1) p shift result = none := by
  rw [varintLoop, if_neg hp]

/-- Running the loop over a stored minimal encoding consumes exactly its
bytes and accumulates the encoded value at the current shift. -/
theorem varintLoop_encode {width : Nat} {m : Mem} {limit : Nat} :
    ∀ v p shift result groups,
      bytesAt m p (encodeVarint v) →
      p + (encodeVarint v).length ≤ limit →
      (encodeVarint v).length ≤ groups →
      result + v <<< shift < 2 ^ width →
      varintLoop m limit width groups p shift result =
        some (p + (encodeVarint v).length, result + v <<< shift) := by
  intro v
  induction v using Nat.strong_induction_on with
  | _ v ih =>
    intro p shift result groups hbytes hlimit hgroups hbound
    by_cases hv : v < 128
    · rw [encodeVarint_of_lt hv] at hbytes hlimit hgroups ⊢
      obtain ⟨hhead, -⟩ := bytesAt_cons.1 hbytes
      simp only [List.length_cons, List.length_nil] at hlimit hgroups ⊢
      obtain ⟨g, rfl⟩ : ∃ g, groups = g + 1 := ⟨groups - 1, by omega⟩
      rw [varintLoop_step_done (by omega) (by omega)]
      rw [hhead, Nat.mod_eq_of_lt hbound]
    · rw [encodeVarint_of_ge (by omega)] at hbytes hlimit hgroups ⊢
      obtain ⟨hhead, htail⟩ := bytesAt_cons.1 hbytes
      simp only [List.length_cons] at hlimit hgroups ⊢
      obtain ⟨g, rfl⟩ : ∃ g, groups = g + 1 := ⟨groups - 1, by omega⟩
      rw [varintLoop_step_cont (by omega) (by omega)]
      have hid : (v % 128) <<< shift + (v / 128) <<< (shift + 7) = v <<< shift := by
        simp only [Nat.shiftLeft_eq, pow_add]
        have hmd : v % 128 + v / 128 * 128 = v := Nat.mod_add_div' v 128
        calc v % 128 * 2 ^ shift + v / 128 * (2 ^ shift * 2 ^ 7)
            = (v % 128 + v / 128 * 128) * 2 ^ shift := by norm_num; ring
          _ = v * 2 ^ shift := by rw [hmd]
      have hle : (v % 128) <<< shift ≤ v <<< shift := by
        simp only [Nat.shiftLeft_eq]
        exact Nat.mul_le_mul_right _ (Nat.mod_le v 128)
      have hmod : (result + (byteAt m p % 128) <<< shift) % 2 ^ width =
          result + (v % 128) <<< shift := by
        rw [hhead]
        have : (v % 128 + 128) % 128 = v % 128 := by omega
        rw [this, Nat.mod_eq_of_lt (by omega)]
      rw [hmod]
      have hrec := ih (v / 128) (Nat.div_lt_self (by omega) (by omega))
        (p + 1) (shift + 7) (result + (v % 128) <<< shift) g
        htail (by omega) (by omega) (by omega)
      rw [hrec]
      congr 1
      exact Prod.ext (by omega) (by omega)

/-- The fast-path test `(b & 128) == 0` in terms of arithmetic. -/
theorem and128_eq (b : Nat) : b &&& 128 = b / 128 % 2 * 128 := by
  have h7 : (128 : Nat) = 2 ^ 7 := by norm_num
  rw [h7, Nat.and_two_pow, Nat.testBit_to_div_mod]
  rcases Nat.mod_two_eq_zero_or_one (b / 2 ^ 7) with h2 | h2 <;>
    · norm_num at h2 ⊢
      simp [h2]

theorem and128_eq_zero_iff {b : Nat} (hb : b < 256) :
    b &&& 128 = 0 ↔ b < 128 := by
  rw [and128_eq]; omega

/-- `GetVarint32Ptr` decodes a stored 32-bit encoding back to its value,
consuming exactly its bytes. -/
theorem getVarint32Ptr_encode {m : Mem} {p limit v : Nat} (hv : v < 2 ^ 32)
    (hbytes : bytesAt m p (encodeVarint v))
    (hlimit : p + (encodeVarint v).length ≤ limit) :
    GetVarint32Ptr m p limit = some (p + (encodeVarint v).length, v) := by
  have hlen : (encodeVarint v).length ≤ 5 := by
    refine encodeVarint_length_le 4 v (lt_of_lt_of_le hv (by norm_num))
  have hpos := encodeVarint_length_pos v
  have hp : p < limit := by omega
  by_cases h : v < 128
  · rw [encodeVarint_of_lt h] at hbytes ⊢
    obtain ⟨hhead, -⟩ := bytesAt_cons.1 hbytes
    rw [GetVarint32Ptr, if_pos hp,
      if_pos (by rw [and128_eq_zero_iff (byteAt_lt m p)]; omega), hhead]
    rfl
  · have hhead : byteAt m p = v % 128 + 128 := by
      rw [encodeVarint_of_ge (by omega)] at hbytes
      exact (bytesAt_cons.1 hbytes).1
    rw [GetVarint32Ptr, if_pos hp,
      if_neg (by rw [and128_eq_zero_iff (byteAt_lt m p)]; omega)]
    have := @varintLoop_encode 32 m limit v p 0 0 5
      hbytes hlimit hlen (by simpa using hv)
    rw [GetVarint32PtrFallback, this]
    simp

/-- `GetVarint64Ptr` decodes a stored 64-bit encoding back to its value,
consuming exactly its bytes. -/
theorem getVarint64Ptr_encode {m : Mem} {p limit v : Nat} (hv : v < 2 ^ 64)
    (hbytes : bytesAt m p (encodeVarint v))
    (hlimit : p + (encodeVarint v).length ≤ limit) :
    GetVarint64Ptr m p limit = some (p + (encodeVarint v).length, v) := by
  have hlen : (encodeVarint v).length ≤ 10 := by
    refine encodeVarint_length_le 9 v (lt_of_lt_of_le hv (by norm_num))
  have := @varintLoop_encode 64 m limit v p 0 0 10
    hbytes hlimit hlen (by simpa using hv)
  rw [GetVarint64Ptr, this]
  simp

/-- The loop fails over a region whose bytes all carry the continuation
bit: a terminating byte is never found before `limit`. -/
theorem varintLoop_none_of_high {m : Mem} {limit width : Nat} :
    ∀ groups p shift result,
      (∀ q, p ≤ q → q < limit → 128 ≤ byteAt m q) →
      varintLoop m limit width groups p shift result = none := by
  intro groups
  induction groups with
  | zero => intro p shift result _; rfl
  | succ g ih =>
    intro p shift result hhigh
    by_cases hp : p < limit
    · rw [varintLoop_step_cont hp (by have := hhigh p le_rfl hp; omega)]
      exact ih _ _ _ fun q hq hql => hhigh q (by omega) hql
    · exact varintLoop_stop hp

theorem getD_take {l : List Nat} {k i : Nat} (h : i < k) :
    (l.take k).getD i 0 = l.getD i 0 := by
  by_cases hl : i < l.length
  · rw [List.getD_eq_getElem _ _ (by simp; omega), List.getD_eq_getElem _ _ hl,
      List.getElem_take]
  · rw [List.getD_eq_default _ _ (by simp; omega),
      List.getD_eq_default _ _ (by omega)]

/-- A strict prefix of an encoding consists only of continuation bytes. -/
theorem truncated_bytes_high {m : Mem} {p v k : Nat}
    (hk : k < (encodeVarint v).length)
    (hbytes : bytesAt m p ((encodeVarint v).take k)) :
    ∀ q, p ≤ q → q < p + k → 128 ≤ byteAt m q := by
  intro q hq hqk
  have hi : q - p < k := by omega
  have hlen : ((encodeVarint v).take k).length = k := by
    simp; omega
  have := hbytes (q - p) (by omega)
  rw [getD_take hi] at this
  have hhigh := encodeVarint_midbyte v (q - p) (by omega)
  have hq' : p + (q - p) = q := by omega
  rw [hq'] at this
  omega

/-- `GetVarint32Ptr` returns the null sentinel on a strictly truncated
encoding. -/
theorem getVarint32Ptr_truncated {m : Mem} {p v k : Nat}
    (hk : k < (encodeVarint v).length)
    (hbytes : bytesAt m p ((encodeVarint v).take k)) :
    GetVarint32Ptr m p (p + k) = none := by
  have hhigh := truncated_bytes_high hk hbytes
  by_cases hp : p < p + k
  · rw [GetVarint32Ptr, if_pos hp,
      if_neg (by
        rw [and128_eq_zero_iff (byteAt_lt m p)]
        have := hhigh p le_rfl hp; omega)]
    exact varintLoop_none_of_high 5 p 0 0 hhigh
  · rw [GetVarint32Ptr, if_neg hp]
    exact varintLoop_none_of_high 5 p 0 0 hhigh

/-- `GetVarint64Ptr` returns the null sentinel on a strictly truncated
encoding. -/
theorem getVarint64Ptr_truncated {m : Mem} {p v k : Nat}
    (hk : k < (encodeVarint v).length)
    (hbytes : bytesAt m p ((encodeVarint v).take k)) :
    GetVarint64Ptr m p (p + k) = none :=
  varintLoop_none_of_high 10 p 0 0 (truncated_bytes_high hk hbytes)

/-- Fuel-based twin of `encodeVarint`, used to evaluate it on literals
(the well-founded recursion of `encodeVarint` does not reduce in the
kernel). -/
def encodeVarintF : Nat → Nat → List Nat
  | 0, v => [v]
  | fuel + 1, v =>
    if v < 128 then [v] else (v % 128 + 128) :: encodeVarintF fuel (v / 128)

theorem encodeVarint_eq_F :
    ∀ fuel v, v < 128 ^ (fuel + 1) → encodeVarint v = encodeVarintF fuel v := by
  intro fuel
  induction fuel with
  | zero =>
    intro v hv
    rw [encodeVarint_of_lt (by simpa using hv)]; rfl
  | succ fuel ih =>
    intro v hv
    by_cases h : v < 128
    · rw [encodeVarint_of_lt h, encodeVarintF, if_pos h]
    · rw [encodeVarint_of_ge (by omega), encodeVarintF, if_neg h]
      congr 1
      refine ih (v / 128) ?_
      rw [Nat.div_lt_iff_lt_mul (by omega)]
      calc v < 128 ^ (fuel + 2) := hv
        _ = 128 ^ (fuel + 1) * 128 := by ring

/-! ### Claims C1 and C2 -/

/-- Claim C1: for every 32-bit value, decoding (via `GetVarint32Ptr`) the
bytes produced by the varint encoder yields exactly that value, and
identically for every 64-bit value via `GetVarint64Ptr`. -/
theorem c1_varint_roundtrip :
    (∀ v, v < 2 ^ 32 → ∀ (m : Mem) (p : Nat),
      bytesAt m p (encodeVarint v) →
      GetVarint32Ptr m p (p + (encodeVarint v).length) =
        some (p + (encodeVarint v).length, v)) ∧
    (∀ v, v < 2 ^ 64 → ∀ (m : Mem) (p : Nat),
      bytesAt m p (encodeVarint v) →
      GetVarint64Ptr m p (p + (encodeVarint v).length) =
        some (p + (encodeVarint v).length, v)) :=
  ⟨fun _ hv _ _ hb => getVarint32Ptr_encode hv hb le_rfl,
   fun _ hv _ _ hb => getVarint64Ptr_encode hv hb le_rfl⟩

/-- Witness for C1: the encoding of 300 is the bytes `[172, 2]` and decodes
back to 300; the encoding of `2 ^ 32` decodes back through the 64-bit
decoder. -/
theorem c1_varint_roundtrip_witness :
    bytesAt (fun i => [172, 2].getD i 0) 0 (encodeVarint 300) ∧
    GetVarint32Ptr (fun i => [172, 2].getD i 0) 0 (0 + (encodeVarint 300).length) =
      some (0 + (encodeVarint 300).length, 300) ∧
    bytesAt (fun i => [128, 128, 128, 128, 16].getD i 0) 0 (encodeVarint (2 ^ 32)) ∧
    GetVarint64Ptr (fun i => [128, 128, 128, 128, 16].getD i 0) 0
        (0 + (encodeVarint (2 ^ 32)).length) =
      some (0 + (encodeVarint (2 ^ 32)).length, 2 ^ 32) := by
  have h1 : bytesAt (fun i => [172, 2].getD i 0) 0 (encodeVarint 300) := by
    have he : encodeVarint 300 = [172, 2] := by
      rw [encodeVarint_eq_F 9 300 (by norm_num)]; decide
    rw [he]; decide
  have h2 : bytesAt (fun i => [128, 128, 128, 128, 16].getD i 0) 0
      (encodeVarint (2 ^ 32)) := by
    have he : encodeVarint (2 ^ 32) = [128, 128, 128, 128, 16] := by
      rw [encodeVarint_eq_F 9 (2 ^ 32) (by norm_num)]; decide
    rw [he]; decide
  exact ⟨h1, c1_varint_roundtrip.1 300 (by norm_num) _ 0 h1, h2,
    c1_varint_roundtrip.2 (2 ^ 32) (by norm_num) _ 0 h2⟩

/-- Claim C2: `VarintLength` equals the number of bytes the encoder
actually produces, and the boundary values 0, 127, 128, 16383, 16384,
`2^32-1`, `2^64-1` occupy exactly 1, 1, 2, 2, 3, 5 and 10 bytes. -/
theorem c2_varintLength_minimal :
    (∀ v, VarintLength v = (encodeVarint v).length) ∧
    VarintLength 0 = 1 ∧ VarintLength 127 = 1 ∧ VarintLength 128 = 2 ∧
    VarintLength 16383 = 2 ∧ VarintLength 16384 = 3 ∧
    VarintLength (2 ^ 32 - 1) = 5 ∧ VarintLength (2 ^ 64 - 1) = 10 := by
  refine ⟨varintLength_eq, ?_, ?_, ?_, ?_, ?_, ?_, ?_⟩ <;>
    · rw [varintLength_eq, encodeVarint_eq_F 9 _ (by norm_num)]
      decide

/-! ### Cursor-level decoding lemmas -/

theorem getVarint32_slice_encode {m : Mem} {s : Slice} {v : Nat}
    (hv : v < 2 ^ 32) (hbytes : bytesAt m s.data (encodeVarint v))
    (hsz : (encodeVarint v).length ≤ s.size) :
    GetVarint32 m s =
      (true, ⟨s.data + (encodeVarint v).length,
        s.size - (encodeVarint v).length⟩, v) := by
  rw [GetVarint32, getVarint32Ptr_encode hv hbytes (by omega)]
  have h : s.data + s.size - (s.data + (encodeVarint v).length) =
      s.size - (encodeVarint v).length := by omega
  simp [h]

theorem getVarint64_slice_encode {m : Mem} {s : Slice} {v : Nat}
    (hv : v < 2 ^ 64) (hbytes : bytesAt m s.data (encodeVarint v))
    (hsz : (encodeVarint v).length ≤ s.size) :
    GetVarint64 m s =
      (true, ⟨s.data + (encodeVarint v).length,
        s.size - (encodeVarint v).length⟩, v) := by
  rw [GetVarint64, getVarint64Ptr_encode hv hbytes (by omega)]
  have h : s.data + s.size - (s.data + (encodeVarint v).length) =
      s.size - (encodeVarint v).length := by omega
  simp [h]

theorem getVarint32_slice_truncated {m : Mem} {s : Slice} {v : Nat}
    (hk : s.size < (encodeVarint v).length)
    (hbytes : bytesAt m s.data ((encodeVarint v).take s.size)) :
    GetVarint32 m s = (false, s, 0) := by
  rw [GetVarint32, getVarint32Ptr_truncated hk hbytes]

theorem getVarint64_slice_truncated {m : Mem} {s : Slice} {v : Nat}
    (hk : s.size < (encodeVarint v).length)
    (hbytes : bytesAt m s.data ((encodeVarint v).take s.size)) :
    GetVarint64 m s = (false, s, 0) := by
  rw [GetVarint64, getVarint64Ptr_truncated hk hbytes]

theorem getVarint32_unchanged_on_fail (m : Mem) (s : Slice)
    (hf : (GetVarint32 m s).1 = false) : (GetVarint32 m s).2.1 = s := by
  rw [GetVarint32] at hf ⊢
  cases h : GetVarint32Ptr m s.data (s.data + s.size) with
  | none => rfl
  | some qv => simp [h] at hf

theorem getVarint64_unchanged_on_fail (m : Mem) (s : Slice)
    (hf : (GetVarint64 m s).1 = false) : (GetVarint64 m s).2.1 = s := by
  rw [GetVarint64] at hf ⊢
  cases h : GetVarint64Ptr m s.data (s.data + s.size) with
  | none => rfl
  | some qv => simp [h] at hf

/-- Claim C5: the cursor decoders succeed on a view whose front bytes form
a well-formed varint, advancing the view past exactly the consumed bytes;
on a view holding a strict prefix of a valid encoding they fail and leave
the view unchanged; and the pointer variants return the null sentinel on
such truncated input. -/
theorem c5_cursor_decoders :
    (∀ v, v < 2 ^ 32 → ∀ (m : Mem) (s : Slice),
      bytesAt m s.data (encodeVarint v) → (encodeVarint v).length ≤ s.size →
      GetVarint32 m s = (true, ⟨s.data + (encodeVarint v).length,
        s.size - (encodeVarint v).length⟩, v)) ∧
    (∀ v, v < 2 ^ 64 → ∀ (m : Mem) (s : Slice),
      bytesAt m s.data (encodeVarint v) → (encodeVarint v).length ≤ s.size →
      GetVarint64 m s = (true, ⟨s.data + (encodeVarint v).length,
        s.size - (encodeVarint v).length⟩, v)) ∧
    (∀ v (m : Mem) (s : Slice), s.size < (encodeVarint v).length →
      bytesAt m s.data ((encodeVarint v).take s.size) →
      GetVarint32 m s = (false, s, 0)) ∧
    (∀ v (m : Mem) (s : Slice), s.size < (encodeVarint v).length →
      bytesAt m s.data ((encodeVarint v).take s.size) →
      GetVarint64 m s = (false, s, 0)) ∧
    (∀ v (m : Mem) (p k : Nat), k < (encodeVarint v).length →
      bytesAt m p ((encodeVarint v).take k) →
      GetVarint32Ptr m p (p + k) = none ∧ GetVarint64Ptr m p (p + k) = none) ∧
    (∀ (m : Mem) (s : Slice), (GetVarint32 m s).1 = false →
      (GetVarint32 m s).2.1 = s) ∧
    (∀ (m : Mem) (s : Slice), (GetVarint64 m s).1 = false →
      (GetVarint64 m s).2.1 = s) :=
  ⟨fun _ hv _ _ hb hsz => getVarint32_slice_encode hv hb hsz,
   fun _ hv _ _ hb hsz => getVarint64_slice_encode hv hb hsz,
   fun _ _ _ hk hb => getVarint32_slice_truncated hk hb,
   fun _ _ _ hk hb => getVarint64_slice_truncated hk hb,
   fun _ _ _ _ hk hb =>
     ⟨getVarint32Ptr_truncated hk hb, getVarint64Ptr_truncated hk hb⟩,
   fun m s hf => getVarint32_unchanged_on_fail m s hf,
   fun m s hf => getVarint64_unchanged_on_fail m s hf⟩

/-- Witness for C5: the two-byte encoding of 300 decodes from a five-byte
view, advancing it two bytes; the same view cut to one byte makes every
decoder fail with the view unchanged. -/
theorem c5_cursor_decoders_witness :
    bytesAt (fun i => [172, 2].getD i 0) (Slice.mk 0 5).data (encodeVarint 300) ∧
    (encodeVarint 300).length ≤ (Slice.mk 0 5).size ∧
    GetVarint32 (fun i => [172, 2].getD i 0) ⟨0, 5⟩ =
      (true, ⟨0 + (encodeVarint 300).length, 5 - (encodeVarint 300).length⟩, 300) ∧
    GetVarint64 (fun i => [172, 2].getD i 0) ⟨0, 5⟩ =
      (true, ⟨0 + (encodeVarint 300).length, 5 - (encodeVarint 300).length⟩, 300) ∧
    (Slice.mk 0 1).size < (encodeVarint 300).length ∧
    bytesAt (fun i => [172, 2].getD i 0) (Slice.mk 0 1).data
      ((encodeVarint 300).take (Slice.mk 0 1).size) ∧
    GetVarint32 (fun i => [172, 2].getD i 0) ⟨0, 1⟩ = (false, ⟨0, 1⟩, 0) ∧
    GetVarint64 (fun i => [172, 2].getD i 0) ⟨0, 1⟩ = (false, ⟨0, 1⟩, 0) ∧
    GetVarint32Ptr (fun i => [172, 2].getD i 0) 0 (0 + 1) = none ∧
    GetVarint64Ptr (fun i => [172, 2].getD i 0) 0 (0 + 1) = none := by
  have he : encodeVarint 300 = [172, 2] := by
    rw [encodeVarint_eq_F 9 300 (by norm_num)]; decide
  have hb : bytesAt (fun i => [172, 2].getD i 0) (Slice.mk 0 5).data
      (encodeVarint 300) := by rw [he]; decide
  have hsz : (encodeVarint 300).length ≤ (Slice.mk 0 5).size := by
    rw [he]; decide
  have hk : (Slice.mk 0 1).size < (encodeVarint 300).length := by
    rw [he]; decide
  have hbt : bytesAt (fun i => [172, 2].getD i 0) (Slice.mk 0 1).data
      ((encodeVarint 300).take (Slice.mk 0 1).size) := by rw [he]; decide
  exact ⟨hb, hsz,
    c5_cursor_decoders.1 300 (by norm_num) _ ⟨0, 5⟩ hb hsz,
    c5_cursor_decoders.2.1 300 (by norm_num) _ ⟨0, 5⟩ hb hsz,
    hk, hbt,
    c5_cursor_decoders.2.2.1 300 _ ⟨0, 1⟩ hk hbt,
    c5_cursor_decoders.2.2.2.1 300 _ ⟨0, 1⟩ hk hbt,
    (c5_cursor_decoders.2.2.2.2.1 300 _ 0 1 hk hbt).1,
    (c5_cursor_decoders.2.2.2.2.1 300 _ 0 1 hk hbt).2⟩

/-! ### Claim C4: length-prefixed byte strings -/

theorem readBytes_length (m : Mem) (p n : Nat) : (readBytes m p n).length = n := by
  simp [readBytes]

theorem readBytes_eq_of_bytesAt {m : Mem} {p : Nat} {l : List Nat}
    (h : bytesAt m p l) : readBytes m p l.length = l := by
  refine List.ext_getElem (readBytes_length m p l.length) ?_
  intro i h1 h2
  have hb := h i h2
  rw [List.getD_eq_getElem l 0 h2] at hb
  simpa [readBytes] using hb

/-- Claim C4: appending a byte string with `PutLengthPrefixedSlice` and
reading it back with `GetLengthPrefixedSlice` returns a view whose bytes
equal the original string, and advances the cursor by exactly
`VarintLength (length) + length` bytes. -/
theorem c4_length_prefixed_roundtrip :
    ∀ (S : List Nat) (m : Mem) (s : Slice),
      S.length < 2 ^ 32 →
      bytesAt m s.data (PutLengthPrefixedSlice S) →
      (PutLengthPrefixedSlice S).length ≤ s.size →
      GetLengthPrefixedSlice m s =
        some (⟨s.data + (VarintLength S.length + S.length),
               s.size - (VarintLength S.length + S.length)⟩,
              ⟨s.data + VarintLength S.length, S.length⟩) ∧
      readBytes m (s.data + VarintLength S.length) S.length = S := by
  intro S m s hlen hbytes hsize
  rw [PutLengthPrefixedSlice] at hbytes hsize
  obtain ⟨hvar, hstr⟩ := bytesAt_append.1 hbytes
  rw [List.length_append] at hsize
  have hVL : VarintLength S.length = (encodeVarint S.length).length :=
    varintLength_eq S.length
  have hget := @getVarint32_slice_encode m s S.length hlen hvar (by omega)
  rw [hVL]
  refine ⟨?_, readBytes_eq_of_bytesAt hstr⟩
  simp only [GetLengthPrefixedSlice, hget]
  rw [if_pos (by omega), Nat.add_assoc, Nat.sub_sub]

/-- Witness for C4: the string `[10, 20, 30]` is stored as `[3, 10, 20, 30]`
and reads back as a view of its three bytes, the cursor advancing four
bytes. -/
theorem c4_length_prefixed_roundtrip_witness :
    ([10, 20, 30] : List Nat).length < 2 ^ 32 ∧
    bytesAt (fun i => [3, 10, 20, 30].getD i 0) (Slice.mk 0 4).data
      (PutLengthPrefixedSlice [10, 20, 30]) ∧
    (PutLengthPrefixedSlice [10, 20, 30]).length ≤ (Slice.mk 0 4).size ∧
    GetLengthPrefixedSlice (fun i => [3, 10, 20, 30].getD i 0) ⟨0, 4⟩ =
      some (⟨0 + (VarintLength ([10, 20, 30] : List Nat).length + 3),
             4 - (VarintLength ([10, 20, 30] : List Nat).length + 3)⟩,
            ⟨0 + VarintLength ([10, 20, 30] : List Nat).length, 3⟩) ∧
    readBytes (fun i => [3, 10, 20, 30].getD i 0)
      (0 + VarintLength ([10, 20, 30] : List Nat).length) 3 = [10, 20, 30] := by
  have he : encodeVarint (3 : Nat) = [3] := by
    rw [encodeVarint_eq_F 9 3 (by norm_num)]; decide
  have hb : bytesAt (fun i => [3, 10, 20, 30].getD i 0) (Slice.mk 0 4).data
      (PutLengthPrefixedSlice [10, 20, 30]) := by
    rw [PutLengthPrefixedSlice]
    simp only [List.length_cons, List.length_nil]
    rw [he]; decide
  have hsz : (PutLengthPrefixedSlice [10, 20, 30]).length ≤ (Slice.mk 0 4).size := by
    rw [PutLengthPrefixedSlice]
    simp only [List.length_cons, List.length_nil]
    rw [he]; decide
  have h := c4_length_prefixed_roundtrip [10, 20, 30]
    (fun i => [3, 10, 20, 30].getD i 0) ⟨0, 4⟩ (by norm_num) hb hsz
  exact ⟨by norm_num, hb, hsz, h.1, h.2⟩

/-! ### Claims C6 and C7: the 32-bit fast path and overflow laxity -/

/-- Five explicit bytes, four continuation bytes then a terminator, decode
through the 32-bit fallback loop with the fifth byte contributing only its
low four bits. -/
theorem varintLoop_five_bytes {m : Mem} {p : Nat} {b0 b1 b2 b3 b4 : Nat}
    (e0 : byteAt m p = b0) (e1 : byteAt m (p + 1) = b1)
    (e2 : byteAt m (p + 2) = b2) (e3 : byteAt m (p + 3) = b3)
    (e4 : byteAt m (p + 4) = b4)
    (h0 : 128 ≤ b0) (h1 : 128 ≤ b1) (h2 : 128 ≤ b2) (h3 : 128 ≤ b3)
    (h4 : b4 < 128) :
    GetVarint32PtrFallback m p (p + 5) =
      some (p + 5, b0 % 128 + b1 % 128 * 128 + b2 % 128 * 128 ^ 2 +
        b3 % 128 * 128 ^ 3 + b4 % 16 * 128 ^ 4) := by
  have e2h : byteAt m (p + 1 + 1) = b2 := by
    rw [show p + 1 + 1 = p + 2 from by omega, e2]
  have e3h : byteAt m (p + 1 + 1 + 1) = b3 := by
    rw [show p + 1 + 1 + 1 = p + 3 from by omega, e3]
  have e4h : byteAt m (p + 1 + 1 + 1 + 1) = b4 := by
    rw [show p + 1 + 1 + 1 + 1 = p + 4 from by omega, e4]
  rw [GetVarint32PtrFallback,
    varintLoop_step_cont (by omega) (by rw [e0]; omega),
    varintLoop_step_cont (by omega) (by rw [e1]; omega),
    varintLoop_step_cont (by omega) (by rw [e2h]; omega),
    varintLoop_step_cont (by omega) (by rw [e3h]; omega),
    varintLoop_step_done (by omega) (by rw [e4h]; omega),
    e0, e1, e2h, e3h, e4h]
  refine congrArg some (Prod.ext (by omega) ?_)
  simp only [Nat.shiftLeft_eq]
  norm_num
  omega

/-- Claim C6: a five-byte varint whose fifth byte carries bits beyond the
32-bit range is not rejected by `GetVarint32Ptr` or its fallback: both
succeed, the fifth byte contributing only its low four bits, the
out-of-range high bits silently discarded. -/
theorem c6_overflow_laxity :
    ∀ (m : Mem) (p : Nat),
      128 ≤ byteAt m p → 128 ≤ byteAt m (p + 1) → 128 ≤ byteAt m (p + 2) →
      128 ≤ byteAt m (p + 3) → byteAt m (p + 4) < 128 →
      GetVarint32PtrFallback m p (p + 5) =
        some (p + 5, byteAt m p % 128 + byteAt m (p + 1) % 128 * 128 +
          byteAt m (p + 2) % 128 * 128 ^ 2 + byteAt m (p + 3) % 128 * 128 ^ 3 +
          byteAt m (p + 4) % 16 * 128 ^ 4) ∧
      GetVarint32Ptr m p (p + 5) =
        some (p + 5, byteAt m p % 128 + byteAt m (p + 1) % 128 * 128 +
          byteAt m (p + 2) % 128 * 128 ^ 2 + byteAt m (p + 3) % 128 * 128 ^ 3 +
          byteAt m (p + 4) % 16 * 128 ^ 4) := by
  intro m p h0 h1 h2 h3 h4
  have hfb := varintLoop_five_bytes rfl rfl rfl rfl rfl h0 h1 h2 h3 h4
  refine ⟨hfb, ?_⟩
  rw [GetVarint32Ptr, if_pos (by omega),
    if_neg (by rw [and128_eq_zero_iff (byteAt_lt m p)]; omega), hfb]

/-- Witness for C6: the bytes `[255, 255, 255, 255, 127]` decode to
`2 ^ 32 - 1 = 4294967295`: the fifth byte 127 keeps only its low four
bits 15, its three out-of-range bits are discarded without an error. -/
theorem c6_overflow_laxity_witness :
    128 ≤ byteAt (fun i => [255, 255, 255, 255, 127].getD i 0) 0 ∧
    128 ≤ byteAt (fun i => [255, 255, 255, 255, 127].getD i 0) (0 + 1) ∧
    128 ≤ byteAt (fun i => [255, 255, 255, 255, 127].getD i 0) (0 + 2) ∧
    128 ≤ byteAt (fun i => [255, 255, 255, 255, 127].getD i 0) (0 + 3) ∧
    byteAt (fun i => [255, 255, 255, 255, 127].getD i 0) (0 + 4) < 128 ∧
    GetVarint32PtrFallback (fun i => [255, 255, 255, 255, 127].getD i 0) 0 (0 + 5) =
      some (0 + 5,
        byteAt (fun i => [255, 255, 255, 255, 127].getD i 0) 0 % 128 +
        byteAt (fun i => [255, 255, 255, 255, 127].getD i 0) (0 + 1) % 128 * 128 +
        byteAt (fun i => [255, 255, 255, 255, 127].getD i 0) (0 + 2) % 128 * 128 ^ 2 +
        byteAt (fun i => [255, 255, 255, 255, 127].getD i 0) (0 + 3) % 128 * 128 ^ 3 +
        byteAt (fun i => [255, 255, 255, 255, 127].getD i 0) (0 + 4) % 16 * 128 ^ 4) := by
  have h := c6_overflow_laxity (fun i => [255, 255, 255, 255, 127].getD i 0) 0
    (by decide) (by decide) (by decide) (by decide) (by decide)
  exact ⟨by decide, by decide, by decide, by decide, by decide, h.1⟩

/-- Claim C7: the single-byte fast path: whenever `p < limit` and the byte
at `p` has a clear high bit, `GetVarint32Ptr` stores that byte as the
value and returns `p + 1`, and this agrees with what the general fallback
routine produces on the same input. -/
theorem c7_fast_path :
    ∀ (m : Mem) (p limit : Nat), p < limit → byteAt m p < 128 →
      GetVarint32Ptr m p limit = some (p + 1, byteAt m p) ∧
      GetVarint32PtrFallback m p limit = some (p + 1, byteAt m p) := by
  intro m p limit hp hb
  constructor
  · rw [GetVarint32Ptr, if_pos hp,
      if_pos (by rw [and128_eq_zero_iff (byteAt_lt m p)]; exact hb)]
  · rw [GetVarint32PtrFallback, varintLoop_step_done hp hb]
    refine congrArg some (Prod.ext rfl ?_)
    simp only [Nat.shiftLeft_eq]
    have := byteAt_lt m p
    norm_num
    omega

/-- Witness for C7: the single byte 7 decodes through both entry points to
the value 7 at the next position. -/
theorem c7_fast_path_witness :
    0 < 1 ∧ byteAt (fun i => [7].getD i 0) 0 < 128 ∧
    GetVarint32Ptr (fun i => [7].getD i 0) 0 1 =
      some (0 + 1, byteAt (fun i => [7].getD i 0) 0) ∧
    GetVarint32PtrFallback (fun i => [7].getD i 0) 0 1 =
      some (0 + 1, byteAt (fun i => [7].getD i 0) 0) := by
  have h := c7_fast_path (fun i => [7].getD i 0) 0 1 (by decide) (by decide)
  exact ⟨by decide, by decide, h.1, h.2⟩

/-! ### Claim C3: fixed-width little-endian encoding -/

/-- Disjoint bit ranges make bitwise or coincide with addition. -/
theorem lor_small (x y M k : Nat) (hM : M = 2 ^ k) (hx : x < M) :
    x ||| y * M = x + y * M := by
  subst hM
  rw [Nat.lor_comm, Nat.mul_comm y, ← Nat.mul_add_lt_is_or hx y]
  exact Nat.add_comm _ _

theorem decodeFixed32_branches (m : Mem) (p : Nat) :
    DecodeFixed32_assemble m p = DecodeFixed32_load m p := by
  have a0 := byteAt_lt m p
  have a1 := byteAt_lt m (p + 1)
  have a2 := byteAt_lt m (p + 2)
  rw [DecodeFixed32_assemble, DecodeFixed32_load]
  simp only [Nat.shiftLeft_eq]
  rw [lor_small _ _ (2 ^ 8) 8 rfl (by norm_num; omega),
    lor_small _ _ (2 ^ 16) 16 rfl (by norm_num; omega),
    lor_small _ _ (2 ^ 24) 24 rfl (by norm_num; omega)]

theorem decodeFixed32_load_lt (m : Mem) (p : Nat) :
    DecodeFixed32_load m p < 2 ^ 32 := by
  have a0 := byteAt_lt m p
  have a1 := byteAt_lt m (p + 1)
  have a2 := byteAt_lt m (p + 2)
  have a3 := byteAt_lt m (p + 3)
  rw [DecodeFixed32_load]
  norm_num
  omega

theorem decodeFixed64_branches (m : Mem) (p : Nat) :
    DecodeFixed64_assemble m p = DecodeFixed64_load m p := by
  rw [DecodeFixed64_assemble, decodeFixed32_branches m (p + 4),
    decodeFixed32_branches m p]
  simp only [Nat.shiftLeft_eq]
  rw [Nat.lor_comm,
    lor_small _ _ (2 ^ 32) 32 rfl (decodeFixed32_load_lt m p)]
  have e5 : byteAt m (p + 4 + 1) = byteAt m (p + 5) := by
    rw [show p + 4 + 1 = p + 5 from by omega]
  have e6 : byteAt m (p + 4 + 2) = byteAt m (p + 6) := by
    rw [show p + 4 + 2 = p + 6 from by omega]
  have e7 : byteAt m (p + 4 + 3) = byteAt m (p + 7) := by
    rw [show p + 4 + 3 = p + 7 from by omega]
  rw [DecodeFixed32_load, DecodeFixed32_load, DecodeFixed64_load, e5, e6, e7]
  norm_num
  omega

set_option maxHeartbeats 1000000 in
/-- Claim C3: the two branches of `DecodeFixed32` / `DecodeFixed64` (the
raw little-endian load and the explicit byte assembly) agree on every
input, and decoding the encoder output returns the original value. -/
theorem c3_fixed_width :
    (∀ (m : Mem) (p : Nat),
      DecodeFixed32_assemble m p = DecodeFixed32_load m p) ∧
    (∀ (m : Mem) (p : Nat),
      DecodeFixed64_assemble m p = DecodeFixed64_load m p) ∧
    (∀ x, x < 2 ^ 32 → ∀ (m : Mem) (p : Nat),
      bytesAt m p (EncodeFixed32 x) →
      DecodeFixed32_load m p = x ∧ DecodeFixed32_assemble m p = x) ∧
    (∀ x, x < 2 ^ 64 → ∀ (m : Mem) (p : Nat),
      bytesAt m p (EncodeFixed64 x) →
      DecodeFixed64_load m p = x ∧ DecodeFixed64_assemble m p = x) := by
  refine ⟨decodeFixed32_branches, decodeFixed64_branches, ?_, ?_⟩
  · intro x hx m p hb
    have h0 := hb 0 (by norm_num [EncodeFixed32])
    have h1 := hb 1 (by norm_num [EncodeFixed32])
    have h2 := hb 2 (by norm_num [EncodeFixed32])
    have h3 := hb 3 (by norm_num [EncodeFixed32])
    simp only [EncodeFixed32, List.getD_cons_zero, List.getD_cons_succ,
      Nat.add_zero] at h0 h1 h2 h3
    have hload : DecodeFixed32_load m p = x := by
      rw [DecodeFixed32_load, h0, h1, h2, h3]
      norm_num
      omega
    exact ⟨hload, by rw [decodeFixed32_branches, hload]⟩
  · intro x hx m p hb
    have h0 := hb 0 (by norm_num [EncodeFixed64])
    have h1 := hb 1 (by norm_num [EncodeFixed64])
    have h2 := hb 2 (by norm_num [EncodeFixed64])
    have h3 := hb 3 (by norm_num [EncodeFixed64])
    have h4 := hb 4 (by norm_num [EncodeFixed64])
    have h5 := hb 5 (by norm_num [EncodeFixed64])
    have h6 := hb 6 (by norm_num [EncodeFixed64])
    have h7 := hb 7 (by norm_num [EncodeFixed64])
    simp only [EncodeFixed64, List.getD_cons_zero, List.getD_cons_succ,
      Nat.add_zero] at h0 h1 h2 h3 h4 h5 h6 h7
    have hload : DecodeFixed64_load m p = x := by
      rw [DecodeFixed64_load, h0, h1, h2, h3, h4, h5, h6, h7]
      norm_num
      omega
    exact ⟨hload, by rw [decodeFixed64_branches, hload]⟩

/-- Witness for C3: the value `0xDEADBEEF` stored as `[239, 190, 173, 222]`
decodes back through both branches, and an all-ones 8-byte pattern decodes
to `2 ^ 64 - 1`. -/
theorem c3_fixed_width_witness :
    3735928559 < 2 ^ 32 ∧
    bytesAt (fun i => [239, 190, 173, 222].getD i 0) 0 (EncodeFixed32 3735928559) ∧
    (DecodeFixed32_load (fun i => [239, 190, 173, 222].getD i 0) 0 = 3735928559 ∧
     DecodeFixed32_assemble (fun i => [239, 190, 173, 222].getD i 0) 0 = 3735928559) ∧
    2 ^ 64 - 1 < 2 ^ 64 ∧
    bytesAt (fun _ => 255) 0 (EncodeFixed64 (2 ^ 64 - 1)) ∧
    (DecodeFixed64_load (fun _ => 255) 0 = 2 ^ 64 - 1 ∧
     DecodeFixed64_assemble (fun _ => 255) 0 = 2 ^ 64 - 1) := by
  have hb32 : bytesAt (fun i => [239, 190, 173, 222].getD i 0) 0
      (EncodeFixed32 3735928559) := by decide
  have hb64 : bytesAt (fun _ => 255) 0 (EncodeFixed64 (2 ^ 64 - 1)) := by decide
  exact ⟨by norm_num, hb32,
    c3_fixed_width.2.2.1 3735928559 (by norm_num) _ 0 hb32,
    by norm_num, hb64,
    c3_fixed_width.2.2.2 (2 ^ 64 - 1) (by norm_num) _ 0 hb64⟩

/-! ### Claim C8: Slice comparison -/

theorem readBytes_zero (m : Mem) (p : Nat) : readBytes m p 0 = [] := rfl

theorem readBytes_succ (m : Mem) (p n : Nat) :
    readBytes m p (n + 1) = byteAt m p :: readBytes m (p + 1) n := by
  rw [readBytes, List.range_succ_eq_map, List.map_cons, List.map_map]
  refine congrArg₂ List.cons (by simp) ?_
  rw [readBytes]
  refine List.map_congr_left ?_
  intro a _
  simp only [Function.comp_apply]
  congr 1
  omega

theorem memcmp_eq_zero_iff (m : Mem) :
    ∀ n pa pb, memcmp m pa pb n = 0 ↔ readBytes m pa n = readBytes m pb n := by
  intro n
  induction n with
  | zero => intro pa pb; simp [memcmp, readBytes_zero]
  | succ n ih =>
    intro pa pb
    rw [memcmp, readBytes_succ, readBytes_succ]
    by_cases hb : byteAt m pa = byteAt m pb
    · rw [if_pos hb, hb]
      simp [ih]
    · rw [if_neg hb]
      have : ((byteAt m pa : Int) - byteAt m pb) ≠ 0 :=
        sub_ne_zero.2 fun hc => hb (by exact_mod_cast hc)
      simp [this, hb]

theorem memcmp_antisymm (m : Mem) :
    ∀ n pa pb, memcmp m pa pb n = - memcmp m pb pa n := by
  intro n
  induction n with
  | zero => intro pa pb; simp [memcmp]
  | succ n ih =>
    intro pa pb
    rw [memcmp, memcmp]
    by_cases hb : byteAt m pa = byteAt m pb
    · rw [if_pos hb, if_pos hb.symm]
      exact ih _ _
    · rw [if_neg hb, if_neg fun hc => hb hc.symm]
      omega

/-- The sign of `Slice::compare` decides the spec-side lexicographic
order, and its vanishing decides byte-level equality. -/
theorem compare_lex (m : Mem) :
    ∀ sa sb pa pb,
      (Slice.compare m ⟨pa, sa⟩ ⟨pb, sb⟩ < 0 ↔
        lexLt (readBytes m pa sa) (readBytes m pb sb) = true) ∧
      (Slice.compare m ⟨pa, sa⟩ ⟨pb, sb⟩ = 0 ↔
        readBytes m pa sa = readBytes m pb sb) := by
  intro sa
  induction sa with
  | zero =>
    intro sb pa pb
    match sb with
    | 0 =>
      simp [Slice.compare, memcmp, readBytes_zero, lexLt]
    | k + 1 =>
      rw [readBytes_zero, readBytes_succ]
      simp [Slice.compare, memcmp, lexLt]
  | succ n ih =>
    intro sb pa pb
    match sb with
    | 0 =>
      rw [readBytes_zero, readBytes_succ]
      simp [Slice.compare, memcmp, lexLt]
    | k + 1 =>
      have hmin : (if n < k then n + 1 else k + 1) =
          (if n < k then n else k) + 1 := by
        by_cases h : n < k <;> simp [h]
      rw [readBytes_succ, readBytes_succ]
      by_cases hb : byteAt m pa = byteAt m pb
      · have hstep : Slice.compare m ⟨pa, n + 1⟩ ⟨pb, k + 1⟩ =
            Slice.compare m ⟨pa + 1, n⟩ ⟨pb + 1, k⟩ := by
          simp only [Slice.compare, hmin, Nat.add_lt_add_iff_right, gt_iff_lt]
          rw [memcmp, if_pos hb]
        rw [hstep, hb]
        obtain ⟨ihlt, iheq⟩ := ih k (pa + 1) (pb + 1)
        constructor
        · rw [ihlt]
          simp [lexLt]
        · rw [iheq]
          simp
      · have hne : ((byteAt m pa : Int) - byteAt m pb) ≠ 0 :=
          sub_ne_zero.2 fun hc => hb (by exact_mod_cast hc)
        have hstep : Slice.compare m ⟨pa, n + 1⟩ ⟨pb, k + 1⟩ =
            (byteAt m pa : Int) - byteAt m pb := by
          simp only [Slice.compare, hmin, Nat.add_lt_add_iff_right, gt_iff_lt]
          rw [memcmp, if_neg hb, if_neg hne]
        rw [hstep]
        constructor
        · constructor
          · intro hlt
            have : byteAt m pa < byteAt m pb := by omega
            simp [lexLt, this]
          · intro hlex
            simp only [lexLt, Bool.or_eq_true, decide_eq_true_eq,
              Bool.and_eq_true, beq_iff_eq] at hlex
            rcases hlex with h | ⟨h, -⟩
            · omega
            · exact absurd h hb
        · constructor
          · intro h0
            exact absurd h0 hne
          · intro hlisteq
            have : byteAt m pa = byteAt m pb := by
              injection hlisteq
            exact absurd this hb

theorem compare_antisymm (m : Mem) (a b : Slice) :
    Slice.compare m a b = - Slice.compare m b a := by
  obtain ⟨pa, sa⟩ := a
  obtain ⟨pb, sb⟩ := b
  simp only [Slice.compare, gt_iff_lt]
  have hmin : (if sa < sb then sa else sb) = (if sb < sa then sb else sa) := by
    split_ifs <;> omega
  rw [hmin, memcmp_antisymm m (if sb < sa then sb else sa) pa pb]
  by_cases hr : memcmp m pb pa (if sb < sa then sb else sa) = 0
  · rw [hr]
    norm_num
    split_ifs <;> omega
  · rw [if_neg (by simpa using hr), if_neg hr]

theorem sliceEq_iff_compare (m : Mem) (x y : Slice) :
    sliceEq m x y = true ↔ Slice.compare m x y = 0 := by
  obtain ⟨px, sx⟩ := x
  obtain ⟨py, sy⟩ := y
  rw [(compare_lex m sx sy px py).2, sliceEq]
  simp only [Bool.and_eq_true, beq_iff_eq]
  constructor
  · rintro ⟨hsz, hmc⟩
    rw [← hsz]
    exact (memcmp_eq_zero_iff m sx px py).1 hmc
  · intro h
    have hlen : sx = sy := by
      have := congrArg List.length h
      simpa [readBytes_length] using this
    subst hlen
    exact ⟨rfl, (memcmp_eq_zero_iff m sx px py).2 h⟩

/-- The memory holding the demonstration strings "abc", "abd" and "ab" at
addresses 0, 3 and 6. -/
def lexDemoMem : Mem := fun i => [97, 98, 99, 97, 98, 100, 97, 98].getD i 0

/-- Claim C8: `Slice::compare` is negative, zero or positive exactly
according to byte-wise lexicographic order with shorter prefix-equal
slices first, `operator==` holds exactly when `compare` is zero, and the
spec examples `"abc" < "abd"`, `"ab" < "abc"`, `"abc" == "abc"` hold. -/
theorem c8_slice_compare :
    (∀ (m : Mem) (a b : Slice),
      (Slice.compare m a b < 0 ↔
        lexLt (sliceBytes m a) (sliceBytes m b) = true) ∧
      (Slice.compare m a b = 0 ↔ sliceBytes m a = sliceBytes m b) ∧
      (0 < Slice.compare m a b ↔
        lexLt (sliceBytes m b) (sliceBytes m a) = true) ∧
      (sliceEq m a b = true ↔ Slice.compare m a b = 0)) ∧
    Slice.compare lexDemoMem ⟨0, 3⟩ ⟨3, 3⟩ < 0 ∧
    Slice.compare lexDemoMem ⟨6, 2⟩ ⟨0, 3⟩ < 0 ∧
    sliceEq lexDemoMem ⟨0, 3⟩ ⟨0, 3⟩ = true := by
  refine ⟨?_, by decide, by decide, by decide⟩
  intro m a b
  obtain ⟨pa, sa⟩ := a
  obtain ⟨pb, sb⟩ := b
  simp only [sliceBytes]
  obtain ⟨hlt, heq⟩ := compare_lex m sa sb pa pb
  obtain ⟨hlt2, -⟩ := compare_lex m sb sa pb pa
  refine ⟨hlt, heq, ?_, sliceEq_iff_compare m _ _⟩
  rw [compare_antisymm m ⟨pa, sa⟩ ⟨pb, sb⟩]
  rw [← hlt2]
  omega

/-! ### Claims C9 and C10 -/

/-- Claim C9: `Status::OK()` is ok and prints as "OK"; every error
constructor yields a non-ok status printing as the kind name, ": ", and
the message, a second fragment being appended after a further ": ". -/
theorem c9_status_display :
    Status.OK.ok = true ∧ Status.OK.ToString = "OK" ∧
    (∀ x y, (Status.NotFound x y).ok = false) ∧
    (∀ x y, (Status.Corruption x y).ok = false) ∧
    (∀ x y, (Status.NotSupported x y).ok = false) ∧
    (∀ x y, (Status.InvalidArgument x y).ok = false) ∧
    (∀ x y, (Status.IOError x y).ok = false) ∧
    (∀ x, (Status.NotFound x "").ToString = "NotFound: " ++ x) ∧
    (∀ x y, y ≠ "" →
      (Status.NotFound x y).ToString = "NotFound: " ++ x ++ ": " ++ y) ∧
    (∀ x, (Status.Corruption x "").ToString = "Corruption: " ++ x) ∧
    (∀ x y, y ≠ "" →
      (Status.Corruption x y).ToString = "Corruption: " ++ x ++ ": " ++ y) ∧
    (∀ x, (Status.NotSupported x "").ToString = "Not supported: " ++ x) ∧
    (∀ x y, y ≠ "" →
      (Status.NotSupported x y).ToString = "Not supported: " ++ x ++ ": " ++ y) ∧
    (∀ x, (Status.InvalidArgument x "").ToString = "Invalid argument: " ++ x) ∧
    (∀ x y, y ≠ "" →
      (Status.InvalidArgument x y).ToString = "Invalid argument: " ++ x ++ ": " ++ y) ∧
    (∀ x, (Status.IOError x "").ToString = "IO error: " ++ x) ∧
    (∀ x y, y ≠ "" →
      (Status.IOError x y).ToString = "IO error: " ++ x ++ ": " ++ y) ∧
    (Status.NotFound "x" "").ToString = "NotFound: x" ∧
    (Status.NotFound "x" "y").ToString = "NotFound: x: y" := by
  refine ⟨rfl, rfl, fun x y => rfl, fun x y => rfl, fun x y => rfl,
    fun x y => rfl, fun x y => rfl, ?_, ?_, ?_, ?_, ?_, ?_, ?_, ?_, ?_, ?_,
    by rfl, by rfl⟩ <;>
  · first
    | (intro x
       simp only [Status.ToString, Status.NotFound, Status.Corruption,
         Status.NotSupported, Status.InvalidArgument, Status.IOError,
         statusMessage, if_pos rfl, codeName]
       rfl)
    | (intro x y hy
       simp only [Status.ToString, Status.NotFound, Status.Corruption,
         Status.NotSupported, Status.InvalidArgument, Status.IOError,
         statusMessage, if_neg hy, codeName]
       simp [String.append_assoc])

/-- Witness for C9: the documented examples, obtained from the theorem at
the concrete fragments "x" and "y". -/
theorem c9_status_display_witness :
    ("y" : String) ≠ "" ∧
    (Status.NotFound "x" "").ToString = "NotFound: " ++ "x" ∧
    (Status.NotFound "x" "y").ToString = "NotFound: " ++ "x" ++ ": " ++ "y" := by
  refine ⟨by decide, ?_, ?_⟩
  · exact c9_status_display.2.2.2.2.2.2.2.1 "x"
  · exact c9_status_display.2.2.2.2.2.2.2.2.1 "x" "y" (by decide)

/-- Claim C10: any two zero-length slices are equal under `operator==` and
compare as 0, whatever their data pointers are: both only ever inspect the
first `min(size)` bytes. -/
theorem c10_empty_slices :
    ∀ (m : Mem) (a b : Slice), a.size = 0 → b.size = 0 →
      sliceEq m a b = true ∧ Slice.compare m a b = 0 := by
  intro m a b ha hb
  obtain ⟨pa, sa⟩ := a
  obtain ⟨pb, sb⟩ := b
  simp only at ha hb
  subst ha
  subst hb
  exact ⟨by simp [sliceEq, memcmp], by simp [Slice.compare, memcmp]⟩

/-- Witness for C10: two empty slices whose data pointers differ (5 and
17) are equal and compare as zero. -/
theorem c10_empty_slices_witness :
    (Slice.mk 5 0).size = 0 ∧ (Slice.mk 17 0).size = 0 ∧
    sliceEq (fun i => i) ⟨5, 0⟩ ⟨17, 0⟩ = true ∧
    Slice.compare (fun i => i) ⟨5, 0⟩ ⟨17, 0⟩ = 0 :=
  ⟨rfl, rfl, (c10_empty_slices (fun i => i) ⟨5, 0⟩ ⟨17, 0⟩ rfl rfl).1,
    (c10_empty_slices (fun i => i) ⟨5, 0⟩ ⟨17, 0⟩ rfl rfl).2⟩

end LevelDB
